import Mathlib

/-!
Shallow embedding of the support/resistance pipeline in `plot_smart_money_sr`
(src/app.py, lines 382-555).

Conventions of the embedding:
* A pandas DataFrame row becomes a `Bar`.  Prices are exact rationals `ℚ`
  (the Python code uses floats; the claims under study are about the
  algorithmic structure, which we model with exact arithmetic).
* The DatetimeIndex entry of a bar is modelled by two natural numbers
  `date` and `time`; `strftime` renders these as zero-padded strings, so
  lexicographic order on the rendered strings coincides with the numeric
  order on `date` and `time`.
* numpy's `arr.max()` / `arr.min()` on a nonempty array become `npMax` /
  `npMin` on lists (with an irrelevant default on `[]`, a case the source
  never reaches because every slice it takes is nonempty).
* Python slices `xs[a:b]` (with nonnegative bounds) become `pySlice`.
* The Python dict `levels` keeps insertion order, so it becomes an
  association list; `levels[price] = [b]` replaces the value when the key
  is already present, which `setKey` reproduces.
-/

set_option maxRecDepth 3000

structure Bar where
  date : Nat
  time : Nat
  open_ : ℚ
  high : ℚ
  low : ℚ
  close : ℚ
  deriving DecidableEq, Repr

instance : Inhabited Bar := ⟨⟨0, 0, 0, 0, 0, 0⟩⟩

/-- `df['High'].values` -/
def highs (df : List Bar) : List ℚ := df.map Bar.high

/-- `df['Low'].values` -/
def lows (df : List Bar) : List ℚ := df.map Bar.low

/-- numpy `.max()` of an array; the `[]` default is never used by the code. -/
def npMax : List ℚ → ℚ
  | [] => 0
  | x :: l => l.foldl max x

/-- numpy `.min()` of an array; the `[]` default is never used by the code. -/
def npMin : List ℚ → ℚ
  | [] => 0
  | x :: l => l.foldl min x

/-- Python slice `xs[a:b]` for natural bounds. -/
def pySlice (xs : List ℚ) (a b : Nat) : List ℚ := (xs.drop a).take (b - a)

/-- Line 396: `[i for i in range(left, len(highs) - right) if highs[i] == highs[i-left:i+right+1].max()]` -/
def swing_highs (df : List Bar) (left right : Nat) : List Nat :=
  (List.range (highs df).length).filter fun i =>
    decide (left ≤ i) && decide (i < (highs df).length - right) &&
      decide ((highs df).getD i 0 = npMax (pySlice (highs df) (i - left) (i + right + 1)))

/-- Line 397: `[i for i in range(left, len(lows) - right) if lows[i] == lows[i-left:i+right+1].min()]` -/
def swing_lows (df : List Bar) (left right : Nat) : List Nat :=
  (List.range (lows df).length).filter fun i =>
    decide (left ≤ i) && decide (i < (lows df).length - right) &&
      decide ((lows df).getD i 0 = npMin (pySlice (lows df) (i - left) (i + right + 1)))

/-- Lines 401-402: swing highs surviving `idx > 0 and np.max(highs[:idx]) > highs[idx]`. -/
def kept_highs (df : List Bar) (left right : Nat) : List Nat :=
  (swing_highs df left right).filter fun idx =>
    decide (0 < idx) && decide ((highs df).getD idx 0 < npMax ((highs df).take idx))

/-- Lines 411-412: swing lows surviving `idx > 0 and np.min(lows[:idx]) < lows[idx]`. -/
def kept_lows (df : List Bar) (left right : Nat) : List Nat :=
  (swing_lows df left right).filter fun idx =>
    decide (0 < idx) && decide (npMin ((lows df).take idx) < (lows df).getD idx 0)

/-- The `Type` field of a block-detail record (`'Resistance'` / `'Support'`). -/
inductive Kind where
  | resistance
  | support
  deriving DecidableEq, Repr

/-- One entry of `block_details` (lines 404-410 and 414-420): the strftime
renderings of the bar's timestamp, the type tag, the price and the bar index. -/
structure BlockDetail where
  date : Nat
  time : Nat
  type : Kind
  price : ℚ
  candle : Nat
  deriving DecidableEq, Repr

instance : Inhabited BlockDetail := ⟨⟨0, 0, Kind.resistance, 0, 0⟩⟩

/-- Build the record appended for a swing high at `idx` (lines 404-410). -/
def mkResistance (df : List Bar) (idx : Nat) : BlockDetail :=
  { date := (df.getD idx default).date
    time := (df.getD idx default).time
    type := Kind.resistance
    price := (df.getD idx default).high
    candle := idx }

/-- Build the record appended for a swing low at `idx` (lines 414-420). -/
def mkSupport (df : List Bar) (idx : Nat) : BlockDetail :=
  { date := (df.getD idx default).date
    time := (df.getD idx default).time
    type := Kind.support
    price := (df.getD idx default).low
    candle := idx }

/-- Lines 399-420: `block_details`, resistance entries first (ascending index),
then support entries (ascending index). -/
def block_details (df : List Bar) (left right : Nat) : List BlockDetail :=
  (kept_highs df left right).map (mkResistance df) ++
    (kept_lows df left right).map (mkSupport df)

/-- Line 477: `tolerance = 0.01 * df['Close'].mean()`. -/
def tolerance (df : List Bar) : ℚ :=
  (1 / 100) * ((df.map Bar.close).sum / (df.length : ℚ))

/-- Whether some existing cluster key is within tolerance of `p`
(the scan `for level in levels: if abs(level - price) < tolerance`). -/
def fitsSome (tol p : ℚ) (levels : List (ℚ × List BlockDetail)) : Bool :=
  levels.any fun kv => decide (|kv.1 - p| < tol)

/-- Append `b` to the first cluster whose key is within tolerance of `p`
(lines 482-486). -/
def appendFit (tol p : ℚ) (b : BlockDetail) : List (ℚ × List BlockDetail) → List (ℚ × List BlockDetail)
  | [] => []
  | (k, ms) :: rest =>
    if |k - p| < tol then (k, ms ++ [b]) :: rest
    else (k, ms) :: appendFit tol p b rest

/-- Python dict assignment `levels[p] = [b]` (line 488): replaces the value in
place when the key exists, otherwise appends a new entry. -/
def setKey (p : ℚ) (b : BlockDetail) : List (ℚ × List BlockDetail) → List (ℚ × List BlockDetail)
  | [] => [(p, [b])]
  | (k, ms) :: rest =>
    if k = p then (k, [b]) :: rest
    else (k, ms) :: setKey p b rest

/-- Lines 479-488: processing of one block-detail record. -/
def assignStep (tol : ℚ) (levels : List (ℚ × List BlockDetail)) (b : BlockDetail) :
    List (ℚ × List BlockDetail) :=
  if fitsSome tol b.price levels then appendFit tol b.price b levels
  else setKey b.price b levels

/-- The `levels` dict after the clustering loop of lines 479-488. -/
def levelsOf (df : List Bar) (left right : Nat) : List (ℚ × List BlockDetail) :=
  (block_details df left right).foldl (assignStep (tolerance df)) []

/-- Lines 491-492: only clusters with at least 2 members get a segment. -/
def retainedLevels (df : List Bar) (left right : Nat) : List (ℚ × List BlockDetail) :=
  (levelsOf df left right).filter fun kv => decide (2 ≤ kv.2.length)

/-- One horizontal line per retained cluster (lines 493-506): the x-range is the
min/max combined (date, time) over members, `y` the cluster key, the colour is
picked from the first member's type. -/
structure Segment where
  x0 : Nat × Nat
  x1 : Nat × Nat
  y : ℚ
  kind : Kind
  deriving DecidableEq, Repr

/-- Lexicographic order on combined (date, time), as `datetime.strptime` yields. -/
def dtLe (a b : Nat × Nat) : Bool :=
  decide (a.1 < b.1) || (decide (a.1 = b.1) && decide (a.2 ≤ b.2))

/-- `min(...)` of the members' combined datetimes ( the `[]` default is never
reached: retained clusters have at least 2 members). -/
def dtMin : List (Nat × Nat) → Nat × Nat
  | [] => (0, 0)
  | d :: ds => ds.foldl (fun a b => if dtLe a b then a else b) d

/-- `max(...)` of the members' combined datetimes. -/
def dtMax : List (Nat × Nat) → Nat × Nat
  | [] => (0, 0)
  | d :: ds => ds.foldl (fun a b => if dtLe b a then a else b) d

/-- Lines 491-506: the drawable segments. -/
def segments (df : List Bar) (left right : Nat) : List Segment :=
  (retainedLevels df left right).map fun kv =>
    { x0 := dtMin (kv.2.map fun b => (b.date, b.time))
      x1 := dtMax (kv.2.map fun b => (b.date, b.time))
      y := kv.1
      kind := (kv.2.headD default).type }

/-- Lines 551-554: the results table, `block_details` sorted by (Date, Time). -/
def results_table (df : List Bar) (left right : Nat) : List BlockDetail :=
  (block_details df left right).mergeSort fun a b => dtLe (a.date, a.time) (b.date, b.time)

/-! Concrete inputs used by witnesses and counterexamples. -/

/-- An 8-bar series: a dominant initial high, then swing highs at indices
2, 4, 6 with highs 10, 11, 12; strictly increasing lows (so no swing lows);
all closes 200, hence tolerance 2. -/
def exBreakBars : List Bar :=
  [⟨1, 0, 20, 30, 0, 200⟩,
   ⟨1, 1, 8, 8, 1, 200⟩,
   ⟨1, 2, 10, 10, 2, 200⟩,
   ⟨1, 3, 8, 8, 3, 200⟩,
   ⟨1, 4, 11, 11, 4, 200⟩,
   ⟨1, 5, 8, 8, 5, 200⟩,
   ⟨1, 6, 12, 12, 6, 200⟩,
   ⟨1, 7, 8, 8, 7, 200⟩]

/-- A 5-bar series whose surviving resistance (price 10) and support
(price 9) fall within tolerance (2) of each other, so the clusterer merges
them into one retained cluster. -/
def exMixedBars : List Bar :=
  [⟨2, 0, 20, 30, 5, 200⟩,
   ⟨2, 1, 9, 9, 9, 200⟩,
   ⟨2, 2, 10, 10, 10, 200⟩,
   ⟨2, 3, 9, 9, 9, 200⟩,
   ⟨2, 4, 10, 10, 10, 200⟩]

/-- A flat 5-bar series: every interior index is both a swing high and a
swing low for left = right = 1. -/
def exFlatBars : List Bar :=
  [⟨3, 0, 7, 10, 5, 7⟩,
   ⟨3, 1, 7, 10, 5, 7⟩,
   ⟨3, 2, 7, 10, 5, 7⟩,
   ⟨3, 3, 7, 10, 5, 7⟩,
   ⟨3, 4, 7, 10, 5, 7⟩]

/-- A 2-bar series: too short for left = right = 1 (N ≤ left + right). -/
def exTinyBars : List Bar :=
  [⟨4, 0, 5, 6, 4, 5⟩,
   ⟨4, 1, 5, 7, 3, 5⟩]

/-! Helper lemmas about `npMax`, `npMin` and `pySlice`. -/

lemma npMax_cons (x : ℚ) (l : List ℚ) : npMax (x :: l) = l.foldl max x := rfl

lemma npMax_cons_cons (x y : ℚ) (l : List ℚ) :
    npMax (x :: y :: l) = npMax (max x y :: l) := rfl

lemma npMin_cons_cons (x y : ℚ) (l : List ℚ) :
    npMin (x :: y :: l) = npMin (min x y :: l) := rfl

lemma foldl_max_init_le (l : List ℚ) : ∀ x : ℚ, x ≤ l.foldl max x := by
  induction l with
  | nil => intro x; simp
  | cons y l ih =>
    intro x
    simpa using le_trans (le_max_left x y) (ih (max x y))

lemma foldl_min_le_init (l : List ℚ) : ∀ x : ℚ, l.foldl min x ≤ x := by
  induction l with
  | nil => intro x; simp
  | cons y l ih =>
    intro x
    simpa using le_trans (ih (min x y)) (min_le_left x y)

lemma le_foldl_max_of_mem (l : List ℚ) : ∀ (x a : ℚ), a ∈ l → a ≤ l.foldl max x := by
  induction l with
  | nil => intro x a h; cases h
  | cons y l ih =>
    intro x a h
    rcases List.mem_cons.mp h with rfl | hm
    · simpa using le_trans (le_max_right x a) (foldl_max_init_le l (max x a))
    · simpa using ih (max x y) a hm

lemma foldl_min_le_of_mem (l : List ℚ) : ∀ (x a : ℚ), a ∈ l → l.foldl min x ≤ a := by
  induction l with
  | nil => intro x a h; cases h
  | cons y l ih =>
    intro x a h
    rcases List.mem_cons.mp h with rfl | hm
    · simpa using le_trans (foldl_min_le_init l (min x a)) (min_le_right x a)
    · simpa using ih (min x y) a hm

lemma foldl_max_mem (l : List ℚ) : ∀ x : ℚ, l.foldl max x ∈ x :: l := by
  induction l with
  | nil => intro x; simp
  | cons y l ih =>
    intro x
    have h : (y :: l).foldl max x = l.foldl max (max x y) := by simp
    rcases List.mem_cons.mp (ih (max x y)) with heq | hm
    · rcases max_choice x y with hxy | hxy
      · rw [h, heq, hxy]; simp
      · rw [h, heq, hxy]; simp
    · rw [h]
      exact List.mem_cons_of_mem _ (List.mem_cons_of_mem _ hm)

lemma foldl_min_mem (l : List ℚ) : ∀ x : ℚ, l.foldl min x ∈ x :: l := by
  induction l with
  | nil => intro x; simp
  | cons y l ih =>
    intro x
    have h : (y :: l).foldl min x = l.foldl min (min x y) := by simp
    rcases List.mem_cons.mp (ih (min x y)) with heq | hm
    · rcases min_choice x y with hxy | hxy
      · rw [h, heq, hxy]; simp
      · rw [h, heq, hxy]; simp
    · rw [h]
      exact List.mem_cons_of_mem _ (List.mem_cons_of_mem _ hm)

lemma le_npMax_of_mem {a : ℚ} {l : List ℚ} (h : a ∈ l) : a ≤ npMax l := by
  cases l with
  | nil => cases h
  | cons x l =>
    rcases List.mem_cons.mp h with rfl | hm
    · exact foldl_max_init_le l a
    · exact le_foldl_max_of_mem l x a hm

lemma npMin_le_of_mem {a : ℚ} {l : List ℚ} (h : a ∈ l) : npMin l ≤ a := by
  cases l with
  | nil => cases h
  | cons x l =>
    rcases List.mem_cons.mp h with rfl | hm
    · exact foldl_min_le_init l a
    · exact foldl_min_le_of_mem l x a hm

lemma npMax_mem {l : List ℚ} (h : l ≠ []) : npMax l ∈ l := by
  cases l with
  | nil => exact absurd rfl h
  | cons x l => exact foldl_max_mem l x

lemma npMin_mem {l : List ℚ} (h : l ≠ []) : npMin l ∈ l := by
  cases l with
  | nil => exact absurd rfl h
  | cons x l => exact foldl_min_mem l x

/-- Membership in a Python slice, phrased through `getD`. -/
lemma mem_pySlice {xs : List ℚ} {a b : Nat} {y : ℚ} :
    y ∈ pySlice xs a b ↔ ∃ j, a ≤ j ∧ j < b ∧ j < xs.length ∧ xs.getD j 0 = y := by
  constructor
  · intro hy
    rcases List.mem_iff_getElem.mp hy with ⟨k, hk, hval⟩
    have hka : k < b - a := by
      have h1 := hk
      simp only [pySlice, List.length_take, List.length_drop] at h1
      omega
    have hak : a + k < xs.length := by
      have h1 := hk
      simp only [pySlice, List.length_take, List.length_drop] at h1
      omega
    refine ⟨a + k, by omega, by omega, hak, ?_⟩
    have hget : (pySlice xs a b)[k] = xs[a + k] := by
      simp only [pySlice]
      rw [List.getElem_take, List.getElem_drop]
    rw [List.getD_eq_getElem xs 0 hak, ← hget, hval]
  · rintro ⟨j, haj, hjb, hjlen, hval⟩
    have hk : j - a < (pySlice xs a b).length := by
      simp only [pySlice, List.length_take, List.length_drop]
      omega
    have hget : (pySlice xs a b)[j - a] = xs[j] := by
      simp only [pySlice]
      rw [List.getElem_take, List.getElem_drop]
      congr 1
      omega
    have hmem := List.getElem_mem hk
    rw [hget] at hmem
    have hy : y = xs[j] := by
      rw [← hval, List.getD_eq_getElem xs 0 hjlen]
    rw [hy]
    exact hmem

/-- The slice `xs[a:b]` contains the element at any in-range index. -/
lemma getD_mem_pySlice {xs : List ℚ} {a b j : Nat} (haj : a ≤ j) (hjb : j < b)
    (hjlen : j < xs.length) : xs.getD j 0 ∈ pySlice xs a b :=
  mem_pySlice.mpr ⟨j, haj, hjb, hjlen, rfl⟩

/-- Characterization of `highs[i] == highs[a:b].max()`: the entry at `i` is the
window maximum exactly when it dominates every entry of the window. -/
lemma getD_eq_npMax_pySlice_iff (xs : List ℚ) (i a b : Nat) (hai : a ≤ i) (hib : i < b)
    (hlen : i < xs.length) :
    xs.getD i 0 = npMax (pySlice xs a b) ↔
      ∀ j, a ≤ j → j < b → j < xs.length → xs.getD j 0 ≤ xs.getD i 0 := by
  have hself : xs.getD i 0 ∈ pySlice xs a b := getD_mem_pySlice hai hib hlen
  constructor
  · intro heq j haj hjb hjlen
    rw [heq]
    exact le_npMax_of_mem (getD_mem_pySlice haj hjb hjlen)
  · intro hall
    have hne : pySlice xs a b ≠ [] := by
      intro hnil; rw [hnil] at hself; cases hself
    have hmax := npMax_mem hne
    rcases mem_pySlice.mp hmax with ⟨j, haj, hjb, hjlen, hval⟩
    have h1 : npMax (pySlice xs a b) ≤ xs.getD i 0 := by
      rw [← hval]; exact hall j haj hjb hjlen
    exact le_antisymm (le_npMax_of_mem hself) h1

/-- Symmetric characterization for window minima. -/
lemma getD_eq_npMin_pySlice_iff (xs : List ℚ) (i a b : Nat) (hai : a ≤ i) (hib : i < b)
    (hlen : i < xs.length) :
    xs.getD i 0 = npMin (pySlice xs a b) ↔
      ∀ j, a ≤ j → j < b → j < xs.length → xs.getD i 0 ≤ xs.getD j 0 := by
  have hself : xs.getD i 0 ∈ pySlice xs a b := getD_mem_pySlice hai hib hlen
  constructor
  · intro heq j haj hjb hjlen
    rw [heq]
    exact npMin_le_of_mem (getD_mem_pySlice haj hjb hjlen)
  · intro hall
    have hne : pySlice xs a b ≠ [] := by
      intro hnil; rw [hnil] at hself; cases hself
    have hmin := npMin_mem hne
    rcases mem_pySlice.mp hmin with ⟨j, haj, hjb, hjlen, hval⟩
    have h1 : xs.getD i 0 ≤ npMin (pySlice xs a b) := by
      rw [← hval]; exact hall j haj hjb hjlen
    exact le_antisymm h1 (npMin_le_of_mem hself)

/-! Membership characterizations for the extractor and the break filter. -/

lemma length_highs (df : List Bar) : (highs df).length = df.length := by
  simp [highs]

lemma length_lows (df : List Bar) : (lows df).length = df.length := by
  simp [lows]

/-- `i` is emitted as a swing high exactly when it is in the admissible index
range and its high dominates every high of the closed window `[i-left, i+right]`. -/
lemma mem_swing_highs_iff (df : List Bar) (left right i : Nat) :
    i ∈ swing_highs df left right ↔
      left ≤ i ∧ i + right < df.length ∧
        ∀ j, i - left ≤ j → j ≤ i + right →
          (highs df).getD j 0 ≤ (highs df).getD i 0 := by
  rw [swing_highs, List.mem_filter, List.mem_range, length_highs]
  simp only [Bool.and_eq_true, decide_eq_true_eq]
  constructor
  · rintro ⟨hiN, ⟨hli, hir⟩, hmax⟩
    have hlen : i < (highs df).length := by rw [length_highs]; omega
    refine ⟨hli, by omega, ?_⟩
    intro j hji hjr
    have hall := (getD_eq_npMax_pySlice_iff (highs df) i (i - left) (i + right + 1)
      (by omega) (by omega) hlen).mp hmax
    exact hall j hji (by omega) (by rw [length_highs]; omega)
  · rintro ⟨hli, hir, hall⟩
    have hlen : i < (highs df).length := by rw [length_highs]; omega
    refine ⟨by omega, ⟨hli, by omega⟩, ?_⟩
    rw [getD_eq_npMax_pySlice_iff (highs df) i (i - left) (i + right + 1)
      (by omega) (by omega) hlen]
    intro j hji hjr _
    exact hall j hji (by omega)

/-- Symmetric characterization for swing lows. -/
lemma mem_swing_lows_iff (df : List Bar) (left right i : Nat) :
    i ∈ swing_lows df left right ↔
      left ≤ i ∧ i + right < df.length ∧
        ∀ j, i - left ≤ j → j ≤ i + right →
          (lows df).getD i 0 ≤ (lows df).getD j 0 := by
  rw [swing_lows, List.mem_filter, List.mem_range, length_lows]
  simp only [Bool.and_eq_true, decide_eq_true_eq]
  constructor
  · rintro ⟨hiN, ⟨hli, hir⟩, hmin⟩
    have hlen : i < (lows df).length := by rw [length_lows]; omega
    refine ⟨hli, by omega, ?_⟩
    intro j hji hjr
    have hall := (getD_eq_npMin_pySlice_iff (lows df) i (i - left) (i + right + 1)
      (by omega) (by omega) hlen).mp hmin
    exact hall j hji (by omega) (by rw [length_lows]; omega)
  · rintro ⟨hli, hir, hall⟩
    have hlen : i < (lows df).length := by rw [length_lows]; omega
    refine ⟨by omega, ⟨hli, by omega⟩, ?_⟩
    rw [getD_eq_npMin_pySlice_iff (lows df) i (i - left) (i + right + 1)
      (by omega) (by omega) hlen]
    intro j hji hjr _
    exact hall j hji (by omega)

lemma pySlice_zero (xs : List ℚ) (b : Nat) : pySlice xs 0 b = xs.take b := by
  simp [pySlice]

/-- Membership in a prefix `xs[:i]`, phrased through `getD`. -/
lemma mem_take_iff_getD {xs : List ℚ} {i : Nat} {y : ℚ} :
    y ∈ xs.take i ↔ ∃ j, j < i ∧ j < xs.length ∧ xs.getD j 0 = y := by
  rw [← pySlice_zero, mem_pySlice]
  constructor
  · rintro ⟨j, _, hji, hjlen, hval⟩
    exact ⟨j, hji, hjlen, hval⟩
  · rintro ⟨j, hji, hjlen, hval⟩
    exact ⟨j, Nat.zero_le j, hji, hjlen, hval⟩

/-- `x < np.max(l)` exactly when some element of the nonempty `l` exceeds `x`. -/
lemma lt_npMax_iff {x : ℚ} {l : List ℚ} (h : l ≠ []) :
    x < npMax l ↔ ∃ y ∈ l, x < y := by
  constructor
  · intro hx
    exact ⟨npMax l, npMax_mem h, hx⟩
  · rintro ⟨y, hy, hxy⟩
    exact lt_of_lt_of_le hxy (le_npMax_of_mem hy)

/-- `np.min(l) < x` exactly when some element of the nonempty `l` is below `x`. -/
lemma npMin_lt_iff {x : ℚ} {l : List ℚ} (h : l ≠ []) :
    npMin l < x ↔ ∃ y ∈ l, y < x := by
  constructor
  · intro hx
    exact ⟨npMin l, npMin_mem h, hx⟩
  · rintro ⟨y, hy, hxy⟩
    exact lt_of_le_of_lt (npMin_le_of_mem hy) hxy

/-- A swing high survives the break filter exactly when some strictly earlier
bar has a strictly larger high. -/
lemma mem_kept_highs_iff (df : List Bar) (left right i : Nat)
    (hs : i ∈ swing_highs df left right) (hpos : 0 < i) :
    i ∈ kept_highs df left right ↔
      ∃ j, j < i ∧ (highs df).getD i 0 < (highs df).getD j 0 := by
  have hiN : i < df.length := by
    rcases (mem_swing_highs_iff df left right i).mp hs with ⟨_, h2, _⟩
    omega
  have hne : (highs df).take i ≠ [] := by
    have : ((highs df).take i).length = i := by
      rw [List.length_take, length_highs]
      omega
    intro hnil
    rw [hnil] at this
    simp at this
    omega
  rw [kept_highs, List.mem_filter]
  simp only [Bool.and_eq_true, decide_eq_true_eq]
  constructor
  · rintro ⟨_, _, hlt⟩
    rcases (lt_npMax_iff hne).mp hlt with ⟨y, hy, hxy⟩
    rcases mem_take_iff_getD.mp hy with ⟨j, hji, hjlen, hval⟩
    exact ⟨j, hji, by rw [hval]; exact hxy⟩
  · rintro ⟨j, hji, hlt⟩
    refine ⟨hs, hpos, (lt_npMax_iff hne).mpr ?_⟩
    have hjlen : j < (highs df).length := by rw [length_highs]; omega
    exact ⟨(highs df).getD j 0, mem_take_iff_getD.mpr ⟨j, hji, hjlen, rfl⟩, hlt⟩

/-- A swing low survives the break filter exactly when some strictly earlier
bar has a strictly smaller low. -/
lemma mem_kept_lows_iff (df : List Bar) (left right i : Nat)
    (hs : i ∈ swing_lows df left right) (hpos : 0 < i) :
    i ∈ kept_lows df left right ↔
      ∃ j, j < i ∧ (lows df).getD j 0 < (lows df).getD i 0 := by
  have hiN : i < df.length := by
    rcases (mem_swing_lows_iff df left right i).mp hs with ⟨_, h2, _⟩
    omega
  have hne : (lows df).take i ≠ [] := by
    have : ((lows df).take i).length = i := by
      rw [List.length_take, length_lows]
      omega
    intro hnil
    rw [hnil] at this
    simp at this
    omega
  rw [kept_lows, List.mem_filter]
  simp only [Bool.and_eq_true, decide_eq_true_eq]
  constructor
  · rintro ⟨_, _, hlt⟩
    rcases (npMin_lt_iff hne).mp hlt with ⟨y, hy, hxy⟩
    rcases mem_take_iff_getD.mp hy with ⟨j, hji, hjlen, hval⟩
    exact ⟨j, hji, by rw [← hval] at hxy; exact hxy⟩
  · rintro ⟨j, hji, hlt⟩
    refine ⟨hs, hpos, (npMin_lt_iff hne).mpr ?_⟩
    have hjlen : j < (lows df).length := by rw [length_lows]; omega
    exact ⟨(lows df).getD j 0, mem_take_iff_getD.mpr ⟨j, hji, hjlen, rfl⟩, hlt⟩

/-! Widening the window shrinks the swing sets. -/

lemma swing_highs_sublist (df : List Bar) {left right left' right' : Nat}
    (hl : left ≤ left') (hr : right ≤ right') :
    (swing_highs df left' right').Sublist (swing_highs df left right) := by
  apply List.monotone_filter_right
  intro i hp
  simp only [Bool.and_eq_true, decide_eq_true_eq] at hp ⊢
  obtain ⟨⟨h1, h2⟩, h3⟩ := hp
  have hlen : i < (highs df).length := by omega
  refine ⟨⟨by omega, by omega⟩, ?_⟩
  rw [getD_eq_npMax_pySlice_iff _ i (i - left) (i + right + 1) (by omega) (by omega) hlen]
  have hall := (getD_eq_npMax_pySlice_iff _ i (i - left') (i + right' + 1)
    (by omega) (by omega) hlen).mp h3
  intro j hj1 hj2 hj3
  exact hall j (by omega) (by omega) hj3

lemma swing_lows_sublist (df : List Bar) {left right left' right' : Nat}
    (hl : left ≤ left') (hr : right ≤ right') :
    (swing_lows df left' right').Sublist (swing_lows df left right) := by
  apply List.monotone_filter_right
  intro i hp
  simp only [Bool.and_eq_true, decide_eq_true_eq] at hp ⊢
  obtain ⟨⟨h1, h2⟩, h3⟩ := hp
  have hlen : i < (lows df).length := by omega
  refine ⟨⟨by omega, by omega⟩, ?_⟩
  rw [getD_eq_npMin_pySlice_iff _ i (i - left) (i + right + 1) (by omega) (by omega) hlen]
  have hall := (getD_eq_npMin_pySlice_iff _ i (i - left') (i + right' + 1)
    (by omega) (by omega) hlen).mp h3
  intro j hj1 hj2 hj3
  exact hall j (by omega) (by omega) hj3

/-! Emptiness for insufficient data. -/

lemma swing_highs_eq_nil (df : List Bar) (left right : Nat)
    (h : df.length ≤ left + right) : swing_highs df left right = [] := by
  rw [swing_highs, List.filter_eq_nil_iff]
  intro i hi
  rw [List.mem_range, length_highs] at hi
  simp only [Bool.and_eq_true, decide_eq_true_eq, not_and]
  rintro ⟨h1, h2⟩
  rw [length_highs] at h2
  omega

lemma swing_lows_eq_nil (df : List Bar) (left right : Nat)
    (h : df.length ≤ left + right) : swing_lows df left right = [] := by
  rw [swing_lows, List.filter_eq_nil_iff]
  intro i hi
  rw [List.mem_range, length_lows] at hi
  simp only [Bool.and_eq_true, decide_eq_true_eq, not_and]
  rintro ⟨h1, h2⟩
  rw [length_lows] at h2
  omega

/-! Generic induction along the clustering fold, and preservation lemmas for
the two branches of the loop body. -/

lemma foldl_induct {α β : Type} (f : β → α → β) (P : β → Prop) :
    ∀ (l : List α) (init : β), P init →
      (∀ b a, a ∈ l → P b → P (f b a)) → P (l.foldl f init) := by
  intro l
  induction l with
  | nil => intro init h _; exact h
  | cons x l ih =>
    intro init h hstep
    exact ih (f init x) (hstep init x (List.mem_cons_self x l) h)
      fun b a ha hb => hstep b a (List.mem_cons_of_mem x ha) hb

lemma appendFit_pres {P : ℚ × List BlockDetail → Prop} (tol p : ℚ) (b : BlockDetail) :
    ∀ levels : List (ℚ × List BlockDetail),
      (∀ kv ∈ levels, P kv) →
      (∀ k ms, (k, ms) ∈ levels → |k - p| < tol → P (k, ms ++ [b])) →
      ∀ kv ∈ appendFit tol p b levels, P kv := by
  intro levels
  induction levels with
  | nil => intro _ _ kv hkv; cases hkv
  | cons hd rest ih =>
    obtain ⟨k, ms⟩ := hd
    intro hall hstep kv hkv
    rw [appendFit] at hkv
    by_cases hcase : |k - p| < tol
    · rw [if_pos hcase] at hkv
      rcases List.mem_cons.mp hkv with rfl | hm
      · exact hstep k ms (List.mem_cons_self _ _) hcase
      · exact hall kv (List.mem_cons_of_mem _ hm)
    · rw [if_neg hcase] at hkv
      rcases List.mem_cons.mp hkv with rfl | hm
      · exact hall _ (List.mem_cons_self _ _)
      · exact ih (fun kv' h => hall kv' (List.mem_cons_of_mem _ h))
          (fun k' ms' h h2 => hstep k' ms' (List.mem_cons_of_mem _ h) h2) kv hm

lemma setKey_pres {P : ℚ × List BlockDetail → Prop} (p : ℚ) (b : BlockDetail) :
    ∀ levels : List (ℚ × List BlockDetail),
      (∀ kv ∈ levels, P kv) → P (p, [b]) →
      ∀ kv ∈ setKey p b levels, P kv := by
  intro levels
  induction levels with
  | nil =>
    intro _ hnew kv hkv
    rw [setKey] at hkv
    rcases List.mem_cons.mp hkv with rfl | hm
    · exact hnew
    · cases hm
  | cons hd rest ih =>
    obtain ⟨k, ms⟩ := hd
    intro hall hnew kv hkv
    rw [setKey] at hkv
    by_cases hcase : k = p
    · rw [if_pos hcase] at hkv
      rcases List.mem_cons.mp hkv with rfl | hm
      · rw [hcase]; exact hnew
      · exact hall kv (List.mem_cons_of_mem _ hm)
    · rw [if_neg hcase] at hkv
      rcases List.mem_cons.mp hkv with rfl | hm
      · exact hall _ (List.mem_cons_self _ _)
      · exact ih (fun kv' h => hall kv' (List.mem_cons_of_mem _ h)) hnew kv hm

lemma assignStep_pres {P : ℚ × List BlockDetail → Prop} (tol : ℚ) (b : BlockDetail)
    (levels : List (ℚ × List BlockDetail))
    (hall : ∀ kv ∈ levels, P kv)
    (hjoin : ∀ k ms, (k, ms) ∈ levels → |k - b.price| < tol → P (k, ms ++ [b]))
    (hnew : P (b.price, [b])) :
    ∀ kv ∈ assignStep tol levels b, P kv := by
  rw [assignStep]
  by_cases h : fitsSome tol b.price levels
  · rw [if_pos h]
    exact appendFit_pres tol b.price b levels hall hjoin
  · rw [if_neg h]
    exact setKey_pres b.price b levels hall hnew

/-! Key-separation helpers for the clustering state. -/

lemma appendFit_map_fst (tol p : ℚ) (b : BlockDetail) :
    ∀ levels : List (ℚ × List BlockDetail),
      (appendFit tol p b levels).map Prod.fst = levels.map Prod.fst := by
  intro levels
  induction levels with
  | nil => rfl
  | cons hd rest ih =>
    obtain ⟨k, ms⟩ := hd
    rw [appendFit]
    by_cases hcase : |k - p| < tol
    · rw [if_pos hcase]
      simp
    · rw [if_neg hcase]
      simp [ih]

lemma mem_map_fst_setKey {k' p : ℚ} (b : BlockDetail) :
    ∀ levels : List (ℚ × List BlockDetail),
      k' ∈ (setKey p b levels).map Prod.fst →
      k' ∈ levels.map Prod.fst ∨ k' = p := by
  intro levels
  induction levels with
  | nil =>
    intro h
    rw [setKey] at h
    simp at h
    exact Or.inr h
  | cons hd rest ih =>
    obtain ⟨k, ms⟩ := hd
    intro h
    rw [setKey] at h
    by_cases hcase : k = p
    · rw [if_pos hcase] at h
      simp only [List.map_cons, List.mem_cons] at h ⊢
      exact Or.inl h
    · rw [if_neg hcase] at h
      simp only [List.map_cons, List.mem_cons] at h ⊢
      rcases h with rfl | h
      · exact Or.inl (Or.inl rfl)
      · rcases ih h with h' | h'
        · exact Or.inl (Or.inr h')
        · exact Or.inr h'

lemma not_fitsSome_far {tol p : ℚ} {levels : List (ℚ × List BlockDetail)}
    (h : ¬ fitsSome tol p levels = true) :
    ∀ k ∈ levels.map Prod.fst, tol ≤ |k - p| := by
  intro k hk
  rcases List.mem_map.mp hk with ⟨kv, hkv, rfl⟩
  by_contra hlt
  push_neg at hlt
  exact h (List.any_eq_true.mpr ⟨kv, hkv, by simpa using hlt⟩)

/-! Spec-side model of the Level Clusterer (section 4.3 of the design
specification), used to settle the refinement claim: the tolerance is 1% of
the mean close, each surviving point joins the first open cluster (in
insertion order) whose key is strictly within tolerance, and a fresh cluster
keyed by the point's own price is opened at the end otherwise. -/

/-- Spec step 1: `tolerance = 0.01 × mean(close price over all input bars)`. -/
def specTolerance (df : List Bar) : ℚ :=
  (1 / 100) * ((df.map Bar.close).sum / (df.length : ℚ))

/-- Spec step 3: one-pass first-fit assignment; a new cluster is always
appended (never overwrites an existing one). -/
def specAssign (tol : ℚ) (b : BlockDetail) :
    List (ℚ × List BlockDetail) → List (ℚ × List BlockDetail)
  | [] => [(b.price, [b])]
  | (k, ms) :: rest =>
    if |k - b.price| < tol then (k, ms ++ [b]) :: rest
    else (k, ms) :: specAssign tol b rest

/-- Spec steps 2-3: process the surviving points in detection order
(Resistance entries in ascending index order, then Support entries). -/
def specLevels (df : List Bar) (left right : Nat) : List (ℚ × List BlockDetail) :=
  (block_details df left right).foldl
    (fun ls b => specAssign (specTolerance df) b ls) []

/-- Spec step 4: retain only clusters with at least two members. -/
def specRetained (df : List Bar) (left right : Nat) : List (ℚ × List BlockDetail) :=
  (specLevels df left right).filter fun kv => decide (2 ≤ kv.2.length)

/-- Spec steps 5-6: one segment per retained cluster. -/
def specSegments (df : List Bar) (left right : Nat) : List Segment :=
  (specRetained df left right).map fun kv =>
    { x0 := dtMin (kv.2.map fun b => (b.date, b.time))
      x1 := dtMax (kv.2.map fun b => (b.date, b.time))
      y := kv.1
      kind := (kv.2.headD default).type }

lemma fitsSome_cons (tol p k : ℚ) (ms : List BlockDetail)
    (rest : List (ℚ × List BlockDetail)) :
    fitsSome tol p ((k, ms) :: rest) =
      (decide (|k - p| < tol) || fitsSome tol p rest) := rfl

/-- With a positive tolerance the loop body of the source (two-pass scan with
a `found` flag and a dict assignment) coincides with the spec's one-pass
first-fit-or-append step. -/
lemma assignStep_eq_specAssign (tol : ℚ) (hpos : 0 < tol) (b : BlockDetail) :
    ∀ levels, assignStep tol levels b = specAssign tol b levels := by
  intro levels
  induction levels with
  | nil => rfl
  | cons hd rest ih =>
    obtain ⟨k, ms⟩ := hd
    by_cases hk : |k - b.price| < tol
    · have hfs : fitsSome tol b.price ((k, ms) :: rest) = true := by
        rw [fitsSome_cons]
        simp [hk]
      rw [assignStep, if_pos hfs, appendFit, if_pos hk, specAssign, if_pos hk]
    · have hkp : ¬ k = b.price := by
        intro h
        rw [h, sub_self, abs_zero] at hk
        exact hk hpos
      by_cases hrest : fitsSome tol b.price rest = true
      · have hfs : fitsSome tol b.price ((k, ms) :: rest) = true := by
          rw [fitsSome_cons]
          simp [hrest]
        have htail : appendFit tol b.price b rest = specAssign tol b rest := by
          rw [← ih, assignStep, if_pos hrest]
        rw [assignStep, if_pos hfs, appendFit, if_neg hk, specAssign, if_neg hk, htail]
      · have hfs : ¬ fitsSome tol b.price ((k, ms) :: rest) = true := by
          rw [fitsSome_cons]
          simp [hk, hrest]
        have htail : setKey b.price b rest = specAssign tol b rest := by
          rw [← ih, assignStep, if_neg hrest]
        rw [assignStep, if_neg hfs, setKey, if_neg hkp, specAssign, if_neg hk, htail]

lemma fitsSome_false_of_nonpos {tol : ℚ} (hnp : tol ≤ 0) (p : ℚ)
    (levels : List (ℚ × List BlockDetail)) : ¬ fitsSome tol p levels = true := by
  intro h
  rcases List.any_eq_true.mp h with ⟨kv, _, hkv⟩
  rw [decide_eq_true_eq] at hkv
  exact absurd (lt_of_le_of_lt (abs_nonneg _) hkv) (not_lt.mpr hnp)

lemma setKey_singletons (p : ℚ) (b : BlockDetail) :
    ∀ levels : List (ℚ × List BlockDetail),
      (∀ kv ∈ levels, kv.2.length = 1) →
      ∀ kv ∈ setKey p b levels, kv.2.length = 1 := by
  intro levels hall
  exact setKey_pres p b levels hall rfl

lemma specAssign_nonpos {tol : ℚ} (hnp : tol ≤ 0) (b : BlockDetail) :
    ∀ levels, specAssign tol b levels = levels ++ [(b.price, [b])] := by
  intro levels
  induction levels with
  | nil => rfl
  | cons hd rest ih =>
    obtain ⟨k, ms⟩ := hd
    have hk : ¬ |k - b.price| < tol :=
      fun h => absurd (lt_of_le_of_lt (abs_nonneg _) h) (not_lt.mpr hnp)
    rw [specAssign, if_neg hk, ih]
    rfl

/-! Staged evaluations of the example pipelines, used by the witnesses below
(the full pipeline is too deep for one definitional-unfolding pass). -/

lemma exBreak_swing_highs : swing_highs exBreakBars 1 1 = [2, 4, 6] := by
  with_unfolding_all decide

lemma exBreak_swing_lows : swing_lows exBreakBars 1 1 = [] := by
  with_unfolding_all decide

lemma exBreak_kept_highs : kept_highs exBreakBars 1 1 = [2, 4, 6] := by
  rw [kept_highs, exBreak_swing_highs]
  with_unfolding_all decide

lemma exBreak_kept_lows : kept_lows exBreakBars 1 1 = [] := by
  rw [kept_lows, exBreak_swing_lows]
  with_unfolding_all decide

lemma exBreak_block_details : block_details exBreakBars 1 1 =
    [mkResistance exBreakBars 2, mkResistance exBreakBars 4, mkResistance exBreakBars 6] := by
  rw [block_details, exBreak_kept_highs, exBreak_kept_lows]
  with_unfolding_all decide

lemma exBreak_tolerance : tolerance exBreakBars = 2 := by
  with_unfolding_all decide

lemma exBreak_levels : levelsOf exBreakBars 1 1 =
    [(10, [mkResistance exBreakBars 2, mkResistance exBreakBars 4]),
     (12, [mkResistance exBreakBars 6])] := by
  rw [levelsOf, exBreak_block_details, exBreak_tolerance]
  with_unfolding_all decide

/-! The claims. -/

/-- Claim C1: for every bar sequence and window parameters `left ≥ 1`,
`right ≥ 1`, the extractor emits a High-kind swing point at exactly the
indices `i` with `left ≤ i < N - right` whose high equals the maximum high
over the closed window `[i-left, i+right]` (rendered here as: the high at `i`
dominates every high of the window, which is attained at `i` itself), and
symmetrically a Low-kind swing point at exactly the indices whose low equals
the window minimum of lows; tied extremes are all emitted, since the
condition is a per-index equality test. -/
theorem swing_extractor_characterization (df : List Bar) (left right : Nat)
    (hl : 1 ≤ left) (hr : 1 ≤ right) (i : Nat) :
    (i ∈ swing_highs df left right ↔
      left ≤ i ∧ i + right < df.length ∧
        ∀ j, i - left ≤ j → j ≤ i + right →
          (highs df).getD j 0 ≤ (highs df).getD i 0) ∧
    (i ∈ swing_lows df left right ↔
      left ≤ i ∧ i + right < df.length ∧
        ∀ j, i - left ≤ j → j ≤ i + right →
          (lows df).getD i 0 ≤ (lows df).getD j 0) :=
  ⟨mem_swing_highs_iff df left right i, mem_swing_lows_iff df left right i⟩

/-- Witness for C1 at a concrete input: bar 2 of `exBreakBars` with
`left = right = 1`. -/
theorem swing_extractor_characterization_witness :
    1 ≤ 1 ∧
      ((2 ∈ swing_highs exBreakBars 1 1 ↔
        1 ≤ 2 ∧ 2 + 1 < exBreakBars.length ∧
          ∀ j, 2 - 1 ≤ j → j ≤ 2 + 1 →
            (highs exBreakBars).getD j 0 ≤ (highs exBreakBars).getD 2 0) ∧
      (2 ∈ swing_lows exBreakBars 1 1 ↔
        1 ≤ 2 ∧ 2 + 1 < exBreakBars.length ∧
          ∀ j, 2 - 1 ≤ j → j ≤ 2 + 1 →
            (lows exBreakBars).getD 2 0 ≤ (lows exBreakBars).getD j 0)) :=
  ⟨by decide, swing_extractor_characterization exBreakBars 1 1 (by decide) (by decide) 2⟩

/-- Claim C2: a swing high at index `i` (necessarily `i ≥ left ≥ 1`) survives
the break filter exactly when the maximum high over all bars strictly before
`i` is strictly greater than `high[i]` (rendered as: some strictly earlier bar
has a strictly greater high); symmetrically for swing lows with the prior
minimum of lows. -/
theorem break_filter_retained_iff (df : List Bar) (left right i : Nat)
    (hl : 1 ≤ left) :
    (i ∈ swing_highs df left right →
      (i ∈ kept_highs df left right ↔
        ∃ j, j < i ∧ (highs df).getD i 0 < (highs df).getD j 0)) ∧
    (i ∈ swing_lows df left right →
      (i ∈ kept_lows df left right ↔
        ∃ j, j < i ∧ (lows df).getD j 0 < (lows df).getD i 0)) := by
  constructor
  · intro hs
    have hpos : 0 < i := by
      have := (mem_swing_highs_iff df left right i).mp hs
      omega
    exact mem_kept_highs_iff df left right i hs hpos
  · intro hs
    have hpos : 0 < i := by
      have := (mem_swing_lows_iff df left right i).mp hs
      omega
    exact mem_kept_lows_iff df left right i hs hpos

/-- Witness for C2 at a concrete input: index 2 of `exBreakBars`. -/
theorem break_filter_retained_iff_witness :
    1 ≤ 1 ∧
      ((2 ∈ swing_highs exBreakBars 1 1 →
        (2 ∈ kept_highs exBreakBars 1 1 ↔
          ∃ j, j < 2 ∧ (highs exBreakBars).getD 2 0 < (highs exBreakBars).getD j 0)) ∧
      (2 ∈ swing_lows exBreakBars 1 1 →
        (2 ∈ kept_lows exBreakBars 1 1 ↔
          ∃ j, j < 2 ∧ (lows exBreakBars).getD j 0 < (lows exBreakBars).getD 2 0))) :=
  ⟨by decide, break_filter_retained_iff exBreakBars 1 1 2 (by decide)⟩

/-- Counterexample to claim C6 as stated: on a flat 5-bar series with
`left = right = 1` every interior index is both a swing high and a swing low,
so the two counts sum to 6 > 5 = N. -/
theorem swing_count_bound_ce :
    (swing_highs exFlatBars 1 1).length + (swing_lows exFlatBars 1 1).length = 6 ∧
    exFlatBars.length = 5 ∧
    ¬ ((swing_highs exFlatBars 1 1).length + (swing_lows exFlatBars 1 1).length ≤
        exFlatBars.length) := by decide

/-- Claim C6 (amended): each swing list separately has at most `N` entries
(so their sum is at most `2·N`, not `N`: an index can be a swing high and a
swing low at once), and no emitted index lies in `[0, left)` or
`[N-right, N)`. -/
theorem swing_counts_and_bounds (df : List Bar) (left right : Nat)
    (hl : 1 ≤ left) (hr : 1 ≤ right) :
    (swing_highs df left right).length ≤ df.length ∧
    (swing_lows df left right).length ≤ df.length ∧
    (swing_highs df left right).length + (swing_lows df left right).length ≤
      2 * df.length ∧
    (∀ i ∈ swing_highs df left right, left ≤ i ∧ i + right < df.length) ∧
    (∀ i ∈ swing_lows df left right, left ≤ i ∧ i + right < df.length) := by
  have h1 : (swing_highs df left right).length ≤ df.length := by
    have := List.length_filter_le
      (fun i =>
        decide (left ≤ i) && decide (i < (highs df).length - right) &&
          decide ((highs df).getD i 0 =
            npMax (pySlice (highs df) (i - left) (i + right + 1))))
      (List.range (highs df).length)
    rw [swing_highs]
    simpa [length_highs] using this
  have h2 : (swing_lows df left right).length ≤ df.length := by
    have := List.length_filter_le
      (fun i =>
        decide (left ≤ i) && decide (i < (lows df).length - right) &&
          decide ((lows df).getD i 0 =
            npMin (pySlice (lows df) (i - left) (i + right + 1))))
      (List.range (lows df).length)
    rw [swing_lows]
    simpa [length_lows] using this
  refine ⟨h1, h2, by omega, ?_, ?_⟩
  · intro i hi
    have := (mem_swing_highs_iff df left right i).mp hi
    exact ⟨this.1, this.2.1⟩
  · intro i hi
    have := (mem_swing_lows_iff df left right i).mp hi
    exact ⟨this.1, this.2.1⟩

/-- Witness for the amended C6 at a concrete input. -/
theorem swing_counts_and_bounds_witness :
    1 ≤ 1 ∧
      ((swing_highs exFlatBars 1 1).length ≤ exFlatBars.length ∧
      (swing_lows exFlatBars 1 1).length ≤ exFlatBars.length ∧
      (swing_highs exFlatBars 1 1).length + (swing_lows exFlatBars 1 1).length ≤
        2 * exFlatBars.length ∧
      (∀ i ∈ swing_highs exFlatBars 1 1, 1 ≤ i ∧ i + 1 < exFlatBars.length) ∧
      (∀ i ∈ swing_lows exFlatBars 1 1, 1 ≤ i ∧ i + 1 < exFlatBars.length)) :=
  ⟨by decide, swing_counts_and_bounds exFlatBars 1 1 (by decide) (by decide)⟩

/-- Claim C7: widening the window on both sides never increases the total
number of emitted swing points — each swing list for the wider window is a
sublist of the one for the narrower window. -/
theorem monotone_window_effect (df : List Bar) (left right left' right' : Nat)
    (hl1 : 1 ≤ left) (hr1 : 1 ≤ right) (hl : left ≤ left') (hr : right ≤ right') :
    (swing_highs df left' right').length + (swing_lows df left' right').length ≤
      (swing_highs df left right).length + (swing_lows df left right).length :=
  Nat.add_le_add (swing_highs_sublist df hl hr).length_le
    (swing_lows_sublist df hl hr).length_le

/-- Witness for C7 at a concrete input: `exBreakBars`, (1,1) against (2,2). -/
theorem monotone_window_effect_witness :
    1 ≤ 1 ∧ 1 ≤ 2 ∧
      (swing_highs exBreakBars 2 2).length + (swing_lows exBreakBars 2 2).length ≤
        (swing_highs exBreakBars 1 1).length + (swing_lows exBreakBars 1 1).length :=
  ⟨by decide, by decide,
    monotone_window_effect exBreakBars 1 1 2 2 (by decide) (by decide) (by decide) (by decide)⟩

/-- Claim C8: with `N ≤ left + right` bars (including `N = 0`) the extractor
emits nothing and every later stage is empty: no surviving points, an empty
results table, no clusters and no segments; the embedding is total, so no
exception is possible. -/
theorem insufficient_data_empty (df : List Bar) (left right : Nat)
    (h : df.length ≤ left + right) :
    swing_highs df left right = [] ∧ swing_lows df left right = [] ∧
    block_details df left right = [] ∧ results_table df left right = [] ∧
    retainedLevels df left right = [] ∧ segments df left right = [] := by
  have hh := swing_highs_eq_nil df left right h
  have hw := swing_lows_eq_nil df left right h
  have hb : block_details df left right = [] := by
    rw [block_details, kept_highs, kept_lows, hh, hw]
    rfl
  refine ⟨hh, hw, hb, ?_, ?_, ?_⟩
  · rw [results_table, hb]
    exact List.mergeSort_nil
  · rw [retainedLevels, levelsOf, hb]
    rfl
  · rw [segments, retainedLevels, levelsOf, hb]
    rfl

/-- Witness for C8 at a concrete input: 2 bars with `left = right = 1`. -/
theorem insufficient_data_empty_witness :
    exTinyBars.length ≤ 1 + 1 ∧
      (swing_highs exTinyBars 1 1 = [] ∧ swing_lows exTinyBars 1 1 = [] ∧
      block_details exTinyBars 1 1 = [] ∧ results_table exTinyBars 1 1 = [] ∧
      retainedLevels exTinyBars 1 1 = [] ∧ segments exTinyBars 1 1 = []) :=
  ⟨by decide, insufficient_data_empty exTinyBars 1 1 (by decide)⟩

/-- Claim C3: the source's clusterer refines the first-fit algorithm the
specification describes: same tolerance (1% of the mean close), same
detection-order processing, first-fit against cluster keys in creation order,
a new cluster keyed by the point's own price when no key matches, and one
segment exactly per cluster with at least 2 members.  With a positive
tolerance the two loop bodies agree step by step; with a nonpositive
tolerance (possible only for nonpositive mean close) every cluster stays a
singleton on both sides, so no segments are emitted by either. -/
theorem clusterer_refines_spec (df : List Bar) (left right : Nat) :
    retainedLevels df left right = specRetained df left right ∧
    segments df left right = specSegments df left right := by
  have hret : retainedLevels df left right = specRetained df left right := by
    rcases lt_or_le 0 (tolerance df) with hpos | hnp
    · have hlv : levelsOf df left right = specLevels df left right := by
        rw [levelsOf, specLevels]
        exact List.foldl_ext _ _ []
          fun ls b _ => assignStep_eq_specAssign (tolerance df) hpos b ls
      rw [retainedLevels, specRetained, hlv]
    · have h1 : ∀ kv ∈ levelsOf df left right, kv.2.length = 1 := by
        rw [levelsOf]
        apply foldl_induct (assignStep (tolerance df))
          (fun ls => ∀ kv ∈ ls, kv.2.length = 1)
        · intro kv hkv
          cases hkv
        · intro ls b _ hP
          rw [assignStep, if_neg (fitsSome_false_of_nonpos hnp b.price ls)]
          exact setKey_singletons b.price b ls hP
      have h2 : ∀ kv ∈ specLevels df left right, kv.2.length = 1 := by
        rw [specLevels]
        apply foldl_induct (fun ls b => specAssign (specTolerance df) b ls)
          (fun ls => ∀ kv ∈ ls, kv.2.length = 1)
        · intro kv hkv
          cases hkv
        · intro ls b _ hP kv hkv
          have hnp' : specTolerance df ≤ 0 := hnp
          rw [specAssign_nonpos hnp' b ls] at hkv
          rcases List.mem_append.mp hkv with hm | hm
          · exact hP kv hm
          · rcases List.mem_singleton.mp hm with rfl
            rfl
      rw [retainedLevels, specRetained]
      rw [List.filter_eq_nil_iff.mpr, List.filter_eq_nil_iff.mpr]
      · intro kv hkv
        simp only [decide_eq_true_eq]
        rw [h2 kv hkv]
        omega
      · intro kv hkv
        simp only [decide_eq_true_eq]
        rw [h1 kv hkv]
        omega
  exact ⟨hret, by rw [segments, specSegments, hret]⟩

/-- Counterexample to claim C4 as stated: on `exMixedBars` the single
retained cluster holds a Resistance-kind and a Support-kind member, because
the surviving support price 9 lies within the tolerance 2 of the
resistance-keyed cluster at 10. -/
theorem level_kind_uniformity_ce :
    ¬ ∀ kv ∈ retainedLevels exMixedBars 1 1,
        ∀ m1 ∈ kv.2, ∀ m2 ∈ kv.2, m1.type = m2.type := by with_unfolding_all decide

/-- Claim C4 (amended): whenever every surviving Resistance price is at least
the tolerance away from every surviving Support price, every cluster — in
particular every rendered one — is kind-uniform.  (The unamended claim fails
when the two kinds come within tolerance of each other: the Support point
then joins the Resistance-keyed cluster.) -/
theorem level_kind_uniformity_amended (df : List Bar) (left right : Nat)
    (hsep : ∀ b1 ∈ block_details df left right, ∀ b2 ∈ block_details df left right,
      b1.type ≠ b2.type → tolerance df ≤ |b1.price - b2.price|) :
    ∀ kv ∈ retainedLevels df left right,
      ∀ m1 ∈ kv.2, ∀ m2 ∈ kv.2, m1.type = m2.type := by
  have key : ∀ kv ∈ levelsOf df left right,
      ∃ b0 ∈ block_details df left right,
        kv.1 = b0.price ∧ ∀ m ∈ kv.2, m.type = b0.type := by
    rw [levelsOf]
    apply foldl_induct (assignStep (tolerance df))
      (fun ls => ∀ kv ∈ ls, ∃ b0 ∈ block_details df left right,
        kv.1 = b0.price ∧ ∀ m ∈ kv.2, m.type = b0.type)
    · intro kv hkv
      cases hkv
    · intro ls b hb hP
      apply assignStep_pres (tolerance df) b ls hP
      · intro k ms hmem hfit
        obtain ⟨b0, hb0, hkey, huni⟩ := hP (k, ms) hmem
        refine ⟨b0, hb0, hkey, ?_⟩
        intro m hm
        rcases List.mem_append.mp hm with hm' | hm'
        · exact huni m hm'
        · rcases List.mem_singleton.mp hm' with rfl
          by_contra hne
          have hge := hsep b0 hb0 m hb fun h => hne h.symm
          have hk2 : k = b0.price := hkey
          rw [hk2] at hfit
          exact absurd hfit (not_lt.mpr hge)
      · exact ⟨b, hb, rfl, fun m hm => by rcases List.mem_singleton.mp hm with rfl; rfl⟩
  intro kv hkv m1 hm1 m2 hm2
  have hlv : kv ∈ levelsOf df left right := (List.mem_filter.mp hkv).1
  obtain ⟨b0, _, _, huni⟩ := key kv hlv
  rw [huni m1 hm1, huni m2 hm2]

/-- Witness for the amended C4: on `exBreakBars` all surviving points are
Resistance-kind, the separation hypothesis holds, and every cluster is
kind-uniform. -/
theorem level_kind_uniformity_amended_witness :
    (∀ b1 ∈ block_details exBreakBars 1 1, ∀ b2 ∈ block_details exBreakBars 1 1,
      b1.type ≠ b2.type → tolerance exBreakBars ≤ |b1.price - b2.price|) ∧
    ∀ kv ∈ retainedLevels exBreakBars 1 1,
      ∀ m1 ∈ kv.2, ∀ m2 ∈ kv.2, m1.type = m2.type :=
  ⟨by rw [exBreak_block_details]; with_unfolding_all decide,
    level_kind_uniformity_amended exBreakBars 1 1
      (by rw [exBreak_block_details]; with_unfolding_all decide)⟩

/-- Counterexample to claim C5 as stated: in `exBreakBars` the surviving
prices 11 and 12 differ by 1 < tolerance 2 yet land in different
clusters — first-fit put 11 into the cluster keyed 10 and 12 is at distance 2 ≥ 2
from that key. -/
theorem pairwise_tolerance_ce :
    |(11 : ℚ) - 12| < tolerance exBreakBars ∧
    (∃ kv ∈ levelsOf exBreakBars 1 1, ∃ m ∈ kv.2, m.price = 11) ∧
    (∃ kv ∈ levelsOf exBreakBars 1 1, ∃ m ∈ kv.2, m.price = 12) ∧
    ¬ ∃ kv ∈ levelsOf exBreakBars 1 1,
        (∃ m1 ∈ kv.2, m1.price = 11) ∧ ∃ m2 ∈ kv.2, m2.price = 12 := by
  rw [exBreak_levels, exBreak_tolerance]
  with_unfolding_all decide

/-- Claim C5 (amended): membership in a cluster is governed by distance to the
cluster's key (its first member's price), not pairwise distance: every member
either is the key (the first member) or lies strictly within tolerance of the
key.  Prices within tolerance of each other may still end up in different
clusters under first-fit. -/
theorem cluster_members_near_key (df : List Bar) (left right : Nat) :
    ∀ kv ∈ levelsOf df left right, ∀ m ∈ kv.2,
      m.price = kv.1 ∨ |kv.1 - m.price| < tolerance df := by
  rw [levelsOf]
  apply foldl_induct (assignStep (tolerance df))
    (fun ls => ∀ kv ∈ ls, ∀ m ∈ kv.2,
      m.price = kv.1 ∨ |kv.1 - m.price| < tolerance df)
  · intro kv hkv
    cases hkv
  · intro ls b _ hP
    apply assignStep_pres (tolerance df) b ls hP
    · intro k ms hmem hfit m hm
      rcases List.mem_append.mp hm with hm' | hm'
      · exact hP (k, ms) hmem m hm'
      · rcases List.mem_singleton.mp hm' with rfl
        exact Or.inr hfit
    · intro m hm
      rcases List.mem_singleton.mp hm with rfl
      exact Or.inl rfl

/-- Witness for the amended C5: the member at price 11 of the cluster keyed 10 in `exBreakBars` is within tolerance of its key. -/
theorem cluster_members_near_key_witness :
    ((10 : ℚ), [mkResistance exBreakBars 2, mkResistance exBreakBars 4]) ∈
        levelsOf exBreakBars 1 1 ∧
    mkResistance exBreakBars 4 ∈ [mkResistance exBreakBars 2, mkResistance exBreakBars 4] ∧
    ((mkResistance exBreakBars 4).price = (10 : ℚ) ∨
      |(10 : ℚ) - (mkResistance exBreakBars 4).price| < tolerance exBreakBars) :=
  ⟨by rw [exBreak_levels]; with_unfolding_all decide, by with_unfolding_all decide,
    cluster_members_near_key exBreakBars 1 1
      ((10 : ℚ), [mkResistance exBreakBars 2, mkResistance exBreakBars 4])
      (by rw [exBreak_levels]; with_unfolding_all decide)
      (mkResistance exBreakBars 4) (by with_unfolding_all decide)⟩

/-- Claim C9: after all surviving points are processed, any two distinct
cluster keys are at least the tolerance apart: a new key is opened only at
distance ≥ tolerance from every existing key, and keys never change. -/
theorem cluster_key_separation (df : List Bar) (left right : Nat) :
    ∀ kv1 ∈ levelsOf df left right, ∀ kv2 ∈ levelsOf df left right,
      kv1.1 ≠ kv2.1 → tolerance df ≤ |kv1.1 - kv2.1| := by
  have key : ∀ k1 ∈ (levelsOf df left right).map Prod.fst,
      ∀ k2 ∈ (levelsOf df left right).map Prod.fst,
        k1 ≠ k2 → tolerance df ≤ |k1 - k2| := by
    rw [levelsOf]
    apply foldl_induct (assignStep (tolerance df))
      (fun ls => ∀ k1 ∈ ls.map Prod.fst, ∀ k2 ∈ ls.map Prod.fst,
        k1 ≠ k2 → tolerance df ≤ |k1 - k2|)
    · intro k1 hk1
      cases hk1
    · intro ls b _ hQ
      rw [assignStep]
      by_cases hfs : fitsSome (tolerance df) b.price ls = true
      · rw [if_pos hfs]
        intro k1 h1 k2 h2
        rw [appendFit_map_fst] at h1 h2
        exact hQ k1 h1 k2 h2
      · rw [if_neg hfs]
        intro k1 h1 k2 h2 hne
        rcases mem_map_fst_setKey b ls h1 with h1' | rfl
        · rcases mem_map_fst_setKey b ls h2 with h2' | rfl
          · exact hQ k1 h1' k2 h2' hne
          · exact not_fitsSome_far hfs k1 h1'
        · rcases mem_map_fst_setKey b ls h2 with h2' | rfl
          · rw [abs_sub_comm]
            exact not_fitsSome_far hfs k2 h2'
          · exact absurd rfl hne
  intro kv1 h1 kv2 h2 hne
  exact key kv1.1 (List.mem_map_of_mem Prod.fst h1) kv2.1
    (List.mem_map_of_mem Prod.fst h2) hne

/-- Witness for C9: the two distinct keys 10 and 12 of `exBreakBars` are 2 ≥ 2 apart. -/
theorem cluster_key_separation_witness :
    ((10 : ℚ), [mkResistance exBreakBars 2, mkResistance exBreakBars 4]) ∈
        levelsOf exBreakBars 1 1 ∧
    ((12 : ℚ), [mkResistance exBreakBars 6]) ∈ levelsOf exBreakBars 1 1 ∧
    (10 : ℚ) ≠ 12 ∧
    tolerance exBreakBars ≤ |(10 : ℚ) - 12| :=
  ⟨by rw [exBreak_levels]; with_unfolding_all decide,
    by rw [exBreak_levels]; with_unfolding_all decide,
    by with_unfolding_all decide,
    cluster_key_separation exBreakBars 1 1
      ((10 : ℚ), [mkResistance exBreakBars 2, mkResistance exBreakBars 4])
      (by rw [exBreak_levels]; with_unfolding_all decide)
      ((12 : ℚ), [mkResistance exBreakBars 6])
      (by rw [exBreak_levels]; with_unfolding_all decide)
      (by with_unfolding_all decide)⟩

/-- Claim C10: every row of the results table carries the price of the bar at
its own candle index — the bar's high for Resistance rows, its low for
Support rows — and the row's Date and Time render that same bar's timestamp. -/
theorem results_table_price_correspondence (df : List Bar) (left right : Nat) :
    ∀ row ∈ results_table df left right,
      (row.type = Kind.resistance → row.price = (df.getD row.candle default).high) ∧
      (row.type = Kind.support → row.price = (df.getD row.candle default).low) ∧
      row.date = (df.getD row.candle default).date ∧
      row.time = (df.getD row.candle default).time := by
  intro row hrow
  have hmem : row ∈ block_details df left right :=
    (List.mergeSort_perm (block_details df left right) _).mem_iff.mp hrow
  rcases List.mem_append.mp hmem with h | h
  · rcases List.mem_map.mp h with ⟨idx, _, rfl⟩
    refine ⟨fun _ => rfl, fun hsup => ?_, rfl, rfl⟩
    exact absurd hsup (by simp [mkResistance])
  · rcases List.mem_map.mp h with ⟨idx, _, rfl⟩
    refine ⟨fun hres => ?_, fun _ => rfl, rfl, rfl⟩
    exact absurd hres (by simp [mkSupport])

/-- Witness for C10: the Resistance row for candle 2 of `exBreakBars`. -/
theorem results_table_price_correspondence_witness :
    mkResistance exBreakBars 2 ∈ results_table exBreakBars 1 1 ∧
    ((mkResistance exBreakBars 2).type = Kind.resistance →
      (mkResistance exBreakBars 2).price =
        (exBreakBars.getD (mkResistance exBreakBars 2).candle default).high) ∧
    ((mkResistance exBreakBars 2).type = Kind.support →
      (mkResistance exBreakBars 2).price =
        (exBreakBars.getD (mkResistance exBreakBars 2).candle default).low) ∧
    (mkResistance exBreakBars 2).date =
      (exBreakBars.getD (mkResistance exBreakBars 2).candle default).date ∧
    (mkResistance exBreakBars 2).time =
      (exBreakBars.getD (mkResistance exBreakBars 2).candle default).time :=
  ⟨(List.mergeSort_perm (block_details exBreakBars 1 1) _).mem_iff.mpr
      (by rw [exBreak_block_details]; with_unfolding_all decide),
    results_table_price_correspondence exBreakBars 1 1 (mkResistance exBreakBars 2)
      ((List.mergeSort_perm (block_details exBreakBars 1 1) _).mem_iff.mpr
        (by rw [exBreak_block_details]; with_unfolding_all decide))⟩
